import Mathlib

/-!
Shallow embedding of `libpoolprotocols/PoolManager.cpp` (ethminer pool
connection manager) and proofs about its registry mutations, supervisor
loop, failover timer, event handlers and hashrate encoding.

Modelling conventions:
* The mutex-protected mutable members of `PoolManager` become the fields
  of `PMState`; 256-bit unsigned quantities (`boundary`, the difficulty
  dividend) are `Nat` (they are used only through unsigned integer
  arithmetic).
* Calls the manager makes into its collaborators (`p_client`, `g_farm`)
  are recorded as explicit action lists; the boolean observations the
  code reads from them (`isPendingState`, `isConnected`, `isMining`) are
  passed as parameters.
* `std::vector::at`, which raises `std::out_of_range`, is modelled with
  `Except`: `Except.error ()` marks the raised exception.
-/

/-- One upstream pool endpoint as the manager sees it: host, port and the
`IsUnrecoverable` flag.  Credentials, scheme and the stratum-mode flag are
opaque to every manager code path modelled here and are omitted. -/
structure URI where
  host : String
  port : Nat
  unrecoverable : Bool
deriving DecidableEq, Repr

/-- The mutable state of `PoolManager` relevant to the verified claims:
the connection registry (`m_connections`), `m_activeConnectionIdx`,
`m_connectionAttempt`, `m_connectionSwitches`, the configured
`m_maxConnectionAttempts`, `m_running`, and the work-package bookkeeping
`m_lastBoundary`, `m_lastDifficulty`, `m_lastEpoch`, `m_epochChanges`.
`lastDifficulty` holds the exact 256-bit integer quotient; the C++ code
stores it as a `double`, and every value this development evaluates it at
is below `2 ^ 53`, where the conversion is exact. -/
structure PMState where
  connections : List URI
  activeConnectionIdx : Nat
  connectionAttempt : Nat
  connectionSwitches : Nat
  maxConnectionAttempts : Nat
  running : Bool
  lastBoundary : Nat
  lastDifficulty : Nat
  lastEpoch : Int
  epochChanges : Nat
deriving DecidableEq, Repr

/-- Calls the manager issues to the pool client or the farm, in program
order. -/
inductive PMAction where
  | suspendMining
  | unsetConnection
  | setConnection (u : URI)
  | connectClient
  | disconnectClient
  | farmStop
deriving DecidableEq, Repr

/-- `PoolManager::addConnection`: append the endpoint to `m_connections`. -/
def addConnection (conn : URI) (s : PMState) : PMState :=
  { s with connections := s.connections ++ [conn] }

/-- `PoolManager::removeConnection(idx)`: erase at `idx`; decrement
`m_activeConnectionIdx` only when it is strictly greater than `idx`. -/
def removeConnection (idx : Nat) (s : PMState) : PMState :=
  { s with
    connections := s.connections.eraseIdx idx
    activeConnectionIdx :=
      if s.activeConnectionIdx > idx then s.activeConnectionIdx - 1
      else s.activeConnectionIdx }

/-- `PoolManager::clearConnections`: clear the registry; if the client
reports connected, request a disconnect (outside the lock). -/
def clearConnections (connected : Bool) (s : PMState) : PMState × List PMAction :=
  ({ s with connections := [] },
    if connected then [PMAction.disconnectClient] else [])

/-- `PoolManager::setActiveConnection(idx)`: no-op when `idx` equals the
current active index; otherwise bump `m_connectionSwitches`, set the
index, zero `m_connectionAttempt`, then (after unlocking) disconnect and
suspend mining.  The code performs no bounds check on `idx`. -/
def setActiveConnection (idx : Nat) (s : PMState) : PMState × List PMAction :=
  if idx = s.activeConnectionIdx then (s, [])
  else
    ({ s with
        connectionSwitches := s.connectionSwitches + 1
        activeConnectionIdx := idx
        connectionAttempt := 0 },
      [PMAction.disconnectClient, PMAction.suspendMining])

/-- `PoolManager::getActiveConnectionCopy`: a copy of the active endpoint
when `m_connections.size() > m_activeConnectionIdx`, else the sentinel
`URI(":0")`, modelled as `none`. -/
def getActiveConnectionCopy (s : PMState) : Option URI :=
  if h : s.activeConnectionIdx < s.connections.length then
    some (s.connections.get ⟨s.activeConnectionIdx, h⟩)
  else none

/-- `PoolManager::check_failover_timeout(ec)`: on a non-cancellation
callback (`ec = false`) with `m_running` set and a non-primary active
index, return to index 0, zero the attempt counter, bump
`m_connectionSwitches` and (after unlocking) request a disconnect;
otherwise change nothing. -/
def check_failover_timeout (ec : Bool) (s : PMState) : PMState × List PMAction :=
  if ec then (s, [])
  else if s.running then
    if s.activeConnectionIdx ≠ 0 then
      ({ s with
          activeConnectionIdx := 0
          connectionAttempt := 0
          connectionSwitches := s.connectionSwitches + 1 },
        [PMAction.disconnectClient])
    else (s, [])
  else (s, [])

/-- Log and submission calls made by the `onSolutionFound` handler. -/
inductive SolAction where
  | logStale
  | logSolution
  | logWasted
  | submitSolution
deriving DecidableEq, Repr

/-- The `g_farm->onSolutionFound` handler: when the client is connected,
log the (possibly stale) solution and submit it; otherwise log it as
wasted.  The handler returns `false` in both cases. -/
def onSolutionFound (connected stale : Bool) : List SolAction × Bool :=
  if connected then
    ((if stale then [SolAction.logStale] else [SolAction.logSolution]) ++
      [SolAction.submitSolution], false)
  else ([SolAction.logWasted], false)

/-- The constant dividend of the difficulty derivation:
`0xffff` followed by 60 zero hex digits, i.e. `0xffff` shifted left by
240 bits. -/
def difficultyDividend : Nat :=
  0xffff000000000000000000000000000000000000000000000000000000000000

/-- The `p_client->onWorkReceived` handler's state update: when the
boundary changed, record it and set `m_lastDifficulty` to the integer
quotient of the constant dividend by the boundary (the C++ builds the
divisor by parsing the 64-hex-digit rendering of the boundary, which is
the boundary's value); when the epoch changed, record it and bump
`m_epochChanges`. -/
def onWorkReceived (boundary : Nat) (epoch : Int) (s : PMState) : PMState :=
  let s1 :=
    if boundary ≠ s.lastBoundary then
      { s with
          lastBoundary := boundary
          lastDifficulty := difficultyDividend / boundary }
    else s
  if epoch ≠ s1.lastEpoch then
    { s1 with lastEpoch := epoch, epochChanges := s1.epochChanges + 1 }
  else s1

/-- The difficulty log text: `m_lastDifficulty / 1e9` printed with
`fixed` and `setprecision(2)`, followed by `"K megahash"`.  The C++
stream rounds the quotient to the nearest two-decimal value; this is
modelled by rounding the exact rational `d / 10^9` half-up at two
decimals, which agrees with the stream output away from representation
ties (all evaluations in this development are far from a tie). -/
def poolDifficultyLog (d : Nat) : String :=
  let n := (d * 100 + 500000000) / 1000000000
  toString (n / 100) ++ "." ++
    (if n % 100 < 10 then "0" ++ toString (n % 100) else toString (n % 100)) ++
    "K megahash"

/-- The unrecoverable-endpoint branch of the supervisor loop (inside
`PoolManager::workLoop`): erase the active endpoint, zero
`m_connectionAttempt`, wrap `m_activeConnectionIdx` to 0 when it is no
longer below the (shrunk) registry size, and bump
`m_connectionSwitches`. -/
def unrecoverableErase (s : PMState) : PMState :=
  let conns := s.connections.eraseIdx s.activeConnectionIdx
  { s with
    connections := conns
    connectionAttempt := 0
    activeConnectionIdx :=
      if conns.length ≤ s.activeConnectionIdx then 0 else s.activeConnectionIdx
    connectionSwitches := s.connectionSwitches + 1 }

/-- The rotation branch of the supervisor loop: zero
`m_connectionAttempt`, increment `m_activeConnectionIdx`, wrap it to 0
when it reaches the registry size, and bump `m_connectionSwitches`. -/
def rotateConnection (s : PMState) : PMState :=
  { s with
    connectionAttempt := 0
    activeConnectionIdx :=
      if s.connections.length ≤ s.activeConnectionIdx + 1 then 0
      else s.activeConnectionIdx + 1
    connectionSwitches := s.connectionSwitches + 1 }

/-- One iteration of the `while (m_running)` body of
`PoolManager::workLoop`, restricted to the connection-management block
(the hashrate-reporting block touches none of the registry state and is
modelled separately by `submitHashrateString`).  `pending`, `connected`
and `mining` are the observations `p_client->isPendingState()`,
`p_client->isConnected()` and `g_farm->isMining()` for this tick.
`Except.error ()` models `std::out_of_range` raised by
`m_connections.at(m_activeConnectionIdx)`. -/
def workLoopTick (pending connected mining : Bool) (s : PMState) :
    Except Unit (PMState × List PMAction) :=
  if pending then Except.ok (s, [])
  else if connected then Except.ok (s, [])
  else
    match s.connections.get? s.activeConnectionIdx with
    | none => Except.error ()
    | some ep =>
      let step :=
        if ep.unrecoverable then (unrecoverableErase s, [PMAction.unsetConnection])
        else if s.maxConnectionAttempts ≤ s.connectionAttempt then
          (rotateConnection s, [])
        else (s, ([] : List PMAction))
      if step.1.connections.isEmpty then
        Except.ok ({ step.1 with running := false },
          PMAction.suspendMining :: step.2 ++
            (if mining then [PMAction.farmStop] else []))
      else
        match step.1.connections.get? step.1.activeConnectionIdx with
        | none => Except.error ()
        | some ep1 =>
          if ep1.host = "exit" then
            Except.ok ({ step.1 with running := false },
              PMAction.suspendMining :: step.2 ++
                (if mining then [PMAction.farmStop] else []))
          else
            Except.ok
              ({ step.1 with connectionAttempt := step.1.connectionAttempt + 1 },
                PMAction.suspendMining :: step.2 ++
                  [PMAction.setConnection ep1, PMAction.connectClient])

/-- Iterate the supervisor tick `n` times with the client observed
neither pending nor connected and the farm not mining, stopping (as the
`while` condition does) once `m_running` is cleared. -/
def runTicks : Nat → PMState → Except Unit PMState
  | 0, s => Except.ok s
  | n + 1, s =>
    if s.running then
      match workLoopTick false false false s with
      | Except.error e => Except.error e
      | Except.ok (s1, _) => runTicks n s1
    else Except.ok s

/-- The lowercase hexadecimal digit for a nibble value below 16 (the
repository's `toHex` renders bytes with lowercase digits). -/
def hexDigitChar (n : Nat) : Char :=
  if n < 10 then Char.ofNat (48 + n) else Char.ofNat (87 + n)

/-- The big-endian base-256 digit list of a value, with no leading zero
byte (`[]` for 0). -/
def beBytes (v : Nat) : List Nat :=
  if h : v = 0 then [] else beBytes (v / 256) ++ [v % 256]
termination_by v
decreasing_by exact Nat.div_lt_self (Nat.pos_of_ne_zero h) (by norm_num)

/-- The big-endian base-16 digit list of a value, with no leading zero
nibble (`[]` for 0). -/
def beNibbles (v : Nat) : List Nat :=
  if h : v = 0 then [] else beNibbles (v / 16) ++ [v % 16]
termination_by v
decreasing_by exact Nat.div_lt_self (Nat.pos_of_ne_zero h) (by norm_num)

/-- Modelled from the spec: the repository's
`toCompactBigEndian(value, 1)` helper (in libdevcore, outside the
provided sources) renders an unsigned value as its minimal big-endian
byte string, padded to at least one byte — so `[0]` for 0. -/
def toCompactBigEndianBytes (v : Nat) : List Nat :=
  if v = 0 then [0] else beBytes v

/-- Modelled from the spec: the repository's `toHex` helper (in
libdevcore, outside the provided sources) renders a byte string as
lowercase hexadecimal, two digits per byte, most significant nibble
first. -/
def toHexChars : List Nat → List Char
  | [] => []
  | b :: bs => hexDigitChar (b / 16) :: hexDigitChar (b % 16) :: toHexChars bs

/-- The nibble sequence of a byte string: high nibble then low nibble of
each byte, in order. -/
def nibblesOfBytes : List Nat → List Nat
  | [] => []
  | b :: bs => b / 16 :: b % 16 :: nibblesOfBytes bs

/-- The `res` variable of the hashrate-reporting block: the hex rendering
`h` of the compact big-endian bytes, with its first character dropped
when that character is `'0'` (`h[0] != '0' ? h : h.substr(1)`). -/
def hashrateResChars (v : Nat) : List Char :=
  match toHexChars (toCompactBigEndianBytes v) with
  | [] => []
  | c :: rest => if c ≠ '0' then c :: rest else rest

/-- The hashrate submission string built in `PoolManager::workLoop`:
left-pad `res` with `'0'` to width 64 (`setw(64)`/`setfill('0')`, strings
are right-adjusted) and put `"0x"` in front. -/
def submitHashrateString (v : Nat) : String :=
  String.mk ('0' :: 'x' ::
    (List.replicate (64 - (hashrateResChars v).length) '0' ++
      hashrateResChars v))

/-- The big-endian nibble list of a value as the spec describes the
encoding: the minimal hexadecimal digit string, `[0]` for 0. -/
def specNibbles (v : Nat) : List Nat :=
  if v = 0 then [0] else beNibbles v

/-- The hashrate string as §6 of the spec words it: `"0x"` followed by
the value's hexadecimal digits in big-endian order, zero-padded on the
left to exactly 64 lowercase digits. -/
def hashrateHexSpec (v : Nat) : String :=
  String.mk ('0' :: 'x' ::
    (List.replicate (64 - (specNibbles v).length) '0' ++
      (specNibbles v).map hexDigitChar))

/-- The numeric value of a big-endian nibble list. -/
def nibblesVal : List Nat → Nat
  | [] => 0
  | d :: ds => d * 16 ^ ds.length + nibblesVal ds

/-- The nibble value of a lowercase hexadecimal digit character. -/
def hexCharVal (c : Char) : Nat :=
  if c.toNat ≤ 57 then c.toNat - 48 else c.toNat - 87

/-- Whether a character is a lowercase hexadecimal digit: a decimal
digit (codes 48-57) or one of the letters a-f (codes 97-102). -/
def isLowerHexDigit (c : Char) : Bool :=
  (48 ≤ c.toNat && c.toNat ≤ 57) || (97 ≤ c.toNat && c.toNat ≤ 102)

/-- A recoverable endpoint used in concrete scenarios. -/
def uriA : URI := { host := "A", port := 1, unrecoverable := false }

/-- A second recoverable endpoint used in concrete scenarios. -/
def uriB : URI := { host := "B", port := 2, unrecoverable := false }

/-- An endpoint the client has marked unrecoverable. -/
def uriU : URI := { host := "U", port := 3, unrecoverable := true }

/-- A freshly started manager with an empty registry: all counters zero,
`maxTries = 3`, the loop live. -/
def pmBase : PMState :=
  { connections := []
    activeConnectionIdx := 0
    connectionAttempt := 0
    connectionSwitches := 0
    maxConnectionAttempts := 3
    running := true
    lastBoundary := 0
    lastDifficulty := 0
    lastEpoch := 0
    epochChanges := 0 }

/-- Registry `[A, B]`, primary active, no attempts yet (the §8 scenario
"Rotation on exhaustion"). -/
def sAB : PMState := { pmBase with connections := [uriA, uriB] }

/-- Registry `[A, B]` after three failed ticks against the primary. -/
def sAB3 : PMState :=
  { pmBase with connections := [uriA, uriB], connectionAttempt := 3 }

/-- Registry `[A, B]` after the rotation tick: active index 1, one fresh
attempt against B, one switch recorded. -/
def sAB4 : PMState :=
  { pmBase with
    connections := [uriA, uriB]
    activeConnectionIdx := 1
    connectionAttempt := 1
    connectionSwitches := 1 }

/-- Registry `[A, B]` with the failover endpoint (index 1) active. -/
def sFail : PMState :=
  { pmBase with connections := [uriA, uriB], activeConnectionIdx := 1 }

/-- Registry holding only an unrecoverable endpoint, primary active. -/
def sUnrec : PMState := { pmBase with connections := [uriU] }

/-- The state after the supervisor tick that erases `sUnrec`'s only
(unrecoverable) endpoint: empty registry, loop stopped, one switch. -/
def wS1 : PMState :=
  { pmBase with connections := [], connectionSwitches := 1, running := false }

/-- The client and farm calls made during the tick that erases `sUnrec`'s
only endpoint while the farm is mining. -/
def wActs : List PMAction :=
  [PMAction.suspendMining, PMAction.unsetConnection, PMAction.farmStop]

/-- The classic difficulty-1 boundary: eight zero hex digits, `ffff`,
then 52 zero hex digits. -/
def diffOneBoundary : Nat :=
  0x00000000ffff0000000000000000000000000000000000000000000000000000

/-! ## Helper lemmas -/

/-- After the unrecoverable-erase branch, a non-empty registry has the
active index back in range (this is what the wrap-to-0 achieves). -/
theorem unrecoverableErase_idx_lt (s : PMState)
    (h : (unrecoverableErase s).connections ≠ []) :
    (unrecoverableErase s).activeConnectionIdx <
      (unrecoverableErase s).connections.length := by
  have hpos : 0 < (unrecoverableErase s).connections.length :=
    List.length_pos.mpr h
  show (if (s.connections.eraseIdx s.activeConnectionIdx).length ≤
      s.activeConnectionIdx then 0 else s.activeConnectionIdx) <
      (s.connections.eraseIdx s.activeConnectionIdx).length
  by_cases hle :
      (s.connections.eraseIdx s.activeConnectionIdx).length ≤
        s.activeConnectionIdx
  · rw [if_pos hle]
    exact hpos
  · rw [if_neg hle]
    omega

/-- The rotation branch leaves the registry untouched and, on a
non-empty registry, the advanced index in range. -/
theorem rotateConnection_idx_lt (s : PMState) (h : s.connections ≠ []) :
    (rotateConnection s).activeConnectionIdx <
      (rotateConnection s).connections.length := by
  have hpos : 0 < s.connections.length := List.length_pos.mpr h
  show (if s.connections.length ≤ s.activeConnectionIdx + 1 then 0
      else s.activeConnectionIdx + 1) < s.connections.length
  by_cases hle : s.connections.length ≤ s.activeConnectionIdx + 1
  · rw [if_pos hle]
    exact hpos
  · rw [if_neg hle]
    omega

/-! ## Claim theorems -/

/-- C1 counterexample: on registry `[A, B]` with `active_index = 1`,
`removeConnection 1` (the removed index equals both `active_index` and
`len - 1`) leaves `active_index = 1` on a one-element registry — the
claimed wrap to 0 does not happen and the invariant
`active_index < len` is violated on a non-empty registry. -/
theorem remove_connection_out_of_range_cex :
    (removeConnection 1 sFail).connections = [uriA] ∧
    (removeConnection 1 sFail).activeConnectionIdx = 1 ∧
    ¬((removeConnection 1 sFail).activeConnectionIdx <
        (removeConnection 1 sFail).connections.length) := by
  refine ⟨rfl, rfl, ?_⟩
  decide

/-- C4 (code bug): a supervisor tick that finds the client neither
pending nor connected while the registry is empty — exactly the state
`clearConnections` leaves behind while running — evaluates
`m_connections.at(m_activeConnectionIdx)` on an empty vector, modelled
as `Except.error ()` (`std::out_of_range`), instead of reaching the
clean empty-registry exit two lines below. -/
theorem empty_registry_tick_raises :
    (clearConnections true sFail).1.connections = [] ∧
    (clearConnections true sFail).1.running = true ∧
    workLoopTick false false false (clearConnections true sFail).1 =
      Except.error () :=
  ⟨rfl, rfl, rfl⟩

/-- C5: whenever a work package carries a boundary different from
`m_lastBoundary`, the handler stores the boundary and sets
`m_lastDifficulty` to `floor((0xffff << 240) / boundary)`; at the
difficulty-1 boundary the quotient is exactly `2 ^ 32` (a value a
`double` represents exactly), and the difficulty log line reads
`"4.29K megahash"`. -/
theorem difficulty_derivation :
    (∀ (s : PMState) (b : Nat) (e : Int), b ≠ s.lastBoundary →
      (onWorkReceived b e s).lastDifficulty = difficultyDividend / b ∧
      (onWorkReceived b e s).lastBoundary = b) ∧
    difficultyDividend / diffOneBoundary = 2 ^ 32 ∧
    poolDifficultyLog (2 ^ 32) = "4.29K megahash" := by
  refine ⟨?_, by decide, by decide⟩
  intro s b e hb
  simp only [onWorkReceived, ne_eq, hb, not_false_iff, if_true]
  split <;> simp

/-- C5 witness: the generic boundary-change conclusion instantiated at
the difficulty-1 boundary arriving over a fresh state. -/
theorem difficulty_derivation_witness :
    (onWorkReceived diffOneBoundary 0 pmBase).lastDifficulty =
      difficultyDividend / diffOneBoundary ∧
    (onWorkReceived diffOneBoundary 0 pmBase).lastBoundary =
      diffOneBoundary :=
  difficulty_derivation.1 pmBase diffOneBoundary 0 (by decide)

/-- C6: the failover-timer callback rotates back to the primary exactly
when it fires without a cancellation error while the loop is running and
a non-primary endpoint is active — resetting the attempt counter,
bumping `m_connectionSwitches` and requesting a disconnect — and is a
strict no-op on a cancellation error, on a stopped loop, or when the
primary is already active. -/
theorem failover_timeout_behavior (ec : Bool) (s : PMState) :
    (ec = false → s.running = true → s.activeConnectionIdx ≠ 0 →
      check_failover_timeout ec s =
        ({ s with
            activeConnectionIdx := 0
            connectionAttempt := 0
            connectionSwitches := s.connectionSwitches + 1 },
          [PMAction.disconnectClient])) ∧
    (ec = true → check_failover_timeout ec s = (s, [])) ∧
    (s.running = false → check_failover_timeout ec s = (s, [])) ∧
    (s.activeConnectionIdx = 0 → check_failover_timeout ec s = (s, [])) := by
  refine ⟨?_, ?_, ?_, ?_⟩ <;> intros <;>
    cases ec <;> simp_all [check_failover_timeout]

/-- C6 witness: the callback fires cleanly on `sFail` (running, active
index 1) and rotates home; fired with the cancellation error it leaves
`sFail` untouched. -/
theorem failover_timeout_behavior_witness :
    check_failover_timeout false sFail =
      ({ sFail with
          activeConnectionIdx := 0
          connectionAttempt := 0
          connectionSwitches := sFail.connectionSwitches + 1 },
        [PMAction.disconnectClient]) ∧
    check_failover_timeout true sFail = (sFail, []) :=
  ⟨(failover_timeout_behavior false sFail).1 rfl rfl (by decide),
    (failover_timeout_behavior true sFail).2.1 rfl⟩

/-- C7: the solution-found handler submits a solution exactly when the
client is connected at that moment; a solution arriving while
disconnected produces only the wasted-solution log entry (nothing is
queued), and the handler returns `false` in every case. -/
theorem solution_found_passthrough :
    (∀ connected stale : Bool,
      (SolAction.submitSolution ∈ (onSolutionFound connected stale).1 ↔
        connected = true) ∧
      (onSolutionFound connected stale).2 = false) ∧
    (∀ stale : Bool,
      (onSolutionFound false stale).1 = [SolAction.logWasted]) := by
  decide

/-- C9: `setActiveConnection` with the currently active index returns
immediately with no state change and no client calls; with any other
index it installs that index, zeroes the attempt counter, bumps
`m_connectionSwitches` by exactly one, and (after unlocking) requests a
disconnect and a mining suspension. -/
theorem set_active_connection_behavior (i : Nat) (s : PMState) :
    (i = s.activeConnectionIdx → setActiveConnection i s = (s, [])) ∧
    (i ≠ s.activeConnectionIdx →
      setActiveConnection i s =
        ({ s with
            connectionSwitches := s.connectionSwitches + 1
            activeConnectionIdx := i
            connectionAttempt := 0 },
          [PMAction.disconnectClient, PMAction.suspendMining])) := by
  constructor <;> intro h <;> simp [setActiveConnection, h]

/-- C9 witness: on `sFail` (active index 1), selecting index 1 is a
no-op and selecting index 0 switches with exactly one bump and the two
client calls. -/
theorem set_active_connection_behavior_witness :
    setActiveConnection 1 sFail = (sFail, []) ∧
    setActiveConnection 0 sFail =
      ({ sFail with
          connectionSwitches := sFail.connectionSwitches + 1
          activeConnectionIdx := 0
          connectionAttempt := 0 },
        [PMAction.disconnectClient, PMAction.suspendMining]) :=
  ⟨(set_active_connection_behavior 1 sFail).1 (by decide),
    (set_active_connection_behavior 0 sFail).2 (by decide)⟩

/-- C10: `setActiveConnection` never validates its index: on a non-empty
registry any out-of-range index different from the active one is
installed as-is, leaving `active_index ≥ len`, after which
`getActiveConnectionCopy` answers the `":0"` sentinel (modelled `none`)
even though the registry is non-empty. -/
theorem set_active_no_bounds_check (s : PMState) (i : Nat)
    (hne : s.connections ≠ []) (hge : s.connections.length ≤ i)
    (hdiff : i ≠ s.activeConnectionIdx) :
    (setActiveConnection i s).1.activeConnectionIdx = i ∧
    (setActiveConnection i s).1.connections = s.connections ∧
    ¬((setActiveConnection i s).1.activeConnectionIdx <
        (setActiveConnection i s).1.connections.length) ∧
    getActiveConnectionCopy (setActiveConnection i s).1 = none := by
  have hnlt : ¬(i < s.connections.length) := by omega
  simp [setActiveConnection, hdiff, getActiveConnectionCopy, hnlt]

/-- C10 witness: selecting index 5 on the two-endpoint registry `sFail`
succeeds, strands `active_index = 5` out of range, and makes
`getActiveConnectionCopy` answer the sentinel. -/
theorem set_active_no_bounds_check_witness :
    (setActiveConnection 5 sFail).1.activeConnectionIdx = 5 ∧
    (setActiveConnection 5 sFail).1.connections = sFail.connections ∧
    ¬((setActiveConnection 5 sFail).1.activeConnectionIdx <
        (setActiveConnection 5 sFail).1.connections.length) ∧
    getActiveConnectionCopy (setActiveConnection 5 sFail).1 = none :=
  set_active_no_bounds_check sFail 5 (by decide) (by decide) (by decide)

/-- C2: a supervisor tick that finds the client neither pending nor
connected and the active endpoint marked unrecoverable clears the
client's endpoint binding (`unsetConnection`), erases the active
endpoint (whatever its index, 0 included), zeroes the attempt counter at
the erase, wraps `active_index` to 0 when it fell out of range, and bumps
`connection_switches`; when the registry thereby became empty the tick
stops the farm (if mining), clears `running`, and the loop exits. -/
theorem unrecoverable_erase_tick (mining : Bool) (s : PMState) (ep : URI)
    (hget : s.connections.get? s.activeConnectionIdx = some ep)
    (hunrec : ep.unrecoverable = true) :
    (unrecoverableErase s).connectionAttempt = 0 ∧
    (workLoopTick false false mining s).isOk = true ∧
    ∀ s1 acts, workLoopTick false false mining s = Except.ok (s1, acts) →
      PMAction.unsetConnection ∈ acts ∧
      s1.connections = s.connections.eraseIdx s.activeConnectionIdx ∧
      s1.connectionSwitches = s.connectionSwitches + 1 ∧
      s1.activeConnectionIdx =
        (if (s.connections.eraseIdx s.activeConnectionIdx).length ≤
            s.activeConnectionIdx then 0 else s.activeConnectionIdx) ∧
      (s1.connections = [] →
        s1.running = false ∧ s1.connectionAttempt = 0 ∧
        (mining = true → PMAction.farmStop ∈ acts)) := by
  have heval : workLoopTick false false mining s =
      (if (unrecoverableErase s).connections.isEmpty then
        Except.ok ({ unrecoverableErase s with running := false },
          PMAction.suspendMining :: [PMAction.unsetConnection] ++
            (if mining then [PMAction.farmStop] else []))
      else
        match (unrecoverableErase s).connections.get?
            (unrecoverableErase s).activeConnectionIdx with
        | none => Except.error ()
        | some ep1 =>
          if ep1.host = "exit" then
            Except.ok ({ unrecoverableErase s with running := false },
              PMAction.suspendMining :: [PMAction.unsetConnection] ++
                (if mining then [PMAction.farmStop] else []))
          else
            Except.ok
              ({ unrecoverableErase s with
                  connectionAttempt :=
                    (unrecoverableErase s).connectionAttempt + 1 },
                PMAction.suspendMining :: [PMAction.unsetConnection] ++
                  [PMAction.setConnection ep1, PMAction.connectClient])) := by
    simp only [workLoopTick, hget, hunrec, Bool.false_eq_true, if_false,
      if_true, ite_true, ite_false]
  refine ⟨rfl, ?_, ?_⟩
  · rw [heval]
    by_cases hE : (unrecoverableErase s).connections.isEmpty
    · rw [if_pos hE]
      rfl
    · have hne : (unrecoverableErase s).connections ≠ [] := by
        simpa [List.isEmpty_iff] using hE
      have hlt := unrecoverableErase_idx_lt s hne
      rw [if_neg hE, List.get?_eq_get hlt]
      by_cases hx : ((unrecoverableErase s).connections.get
          ⟨(unrecoverableErase s).activeConnectionIdx, hlt⟩).host = "exit"
      · simp only [hx, if_true, ite_true]
        rfl
      · simp only [hx, if_false, ite_false]
        rfl
  · intro s1 acts heq
    rw [heval] at heq
    by_cases hE : (unrecoverableErase s).connections.isEmpty
    · rw [if_pos hE] at heq
      simp only [Except.ok.injEq, Prod.mk.injEq] at heq
      obtain ⟨h1, h2⟩ := heq
      subst h1; subst h2
      refine ⟨by simp, rfl, rfl, rfl, ?_⟩
      intro _
      refine ⟨rfl, rfl, ?_⟩
      intro hm; subst hm; simp
    · have hne : (unrecoverableErase s).connections ≠ [] := by
        simpa [List.isEmpty_iff] using hE
      have hlt := unrecoverableErase_idx_lt s hne
      rw [if_neg hE, List.get?_eq_get hlt] at heq
      by_cases hx : ((unrecoverableErase s).connections.get
          ⟨(unrecoverableErase s).activeConnectionIdx, hlt⟩).host = "exit"
      · simp only [hx, if_true, ite_true, Except.ok.injEq, Prod.mk.injEq] at heq
        obtain ⟨h1, h2⟩ := heq
        subst h1; subst h2
        refine ⟨by simp, rfl, rfl, rfl, ?_⟩
        intro hc
        exact absurd hc hne
      · simp only [hx, if_false, ite_false, Except.ok.injEq, Prod.mk.injEq] at heq
        obtain ⟨h1, h2⟩ := heq
        subst h1; subst h2
        refine ⟨by simp, rfl, rfl, rfl, ?_⟩
        intro hc
        exact absurd hc hne

/-- C2 witness: the tick on `sUnrec` (single unrecoverable endpoint at
index 0, farm mining) erases it, producing the empty, stopped state
`wS1` with the calls `wActs`; every conclusion is evaluated there. -/
theorem unrecoverable_erase_tick_witness :
    PMAction.unsetConnection ∈ wActs ∧
    wS1.connections = sUnrec.connections.eraseIdx sUnrec.activeConnectionIdx ∧
    wS1.connectionSwitches = sUnrec.connectionSwitches + 1 ∧
    wS1.running = false ∧ wS1.connectionAttempt = 0 ∧
    PMAction.farmStop ∈ wActs := by
  have h := (unrecoverable_erase_tick true sUnrec uriU rfl rfl).2.2 wS1 wActs rfl
  exact ⟨h.1, h.2.1, h.2.2.1, (h.2.2.2.2 rfl).1, (h.2.2.2.2 rfl).2.1,
    (h.2.2.2.2 rfl).2.2 rfl⟩

/-- C3 counterexample: with endpoints `[A, B]`, `max_attempts = 3` and a
client that never connects, three supervisor ticks observing the
disconnected state only raise `connection_attempt` to 3; `active_index`
is still 0 and `connection_switches` still 0, contradicting the claimed
`active_index == 1`, `connection_switches == 1` after three ticks. -/
theorem rotation_three_ticks_cex :
    runTicks 3 sAB = Except.ok sAB3 ∧
    sAB3.activeConnectionIdx = 0 ∧ sAB3.connectionSwitches = 0 :=
  ⟨rfl, rfl, rfl⟩

/-- C3 amended: rotation fires on the tick that starts with
`connection_attempt ≥ max_attempts` — it bumps `connection_switches`,
advances `active_index` modulo the registry size and zeroes
`connection_attempt` at the moment of rotation (re-counting the fresh
attempt afterwards) — and a tick starting below the threshold changes
neither `active_index` nor `connection_switches`; on `[A, B]` with
`max_attempts = 3` this means `active_index == 1` and
`connection_switches == 1` after FOUR ticks observing disconnected, not
three. -/
theorem rotation_on_exhaustion_amended :
    (∀ (mining : Bool) (s : PMState) (ep : URI),
      s.connections.get? s.activeConnectionIdx = some ep →
      ep.unrecoverable = false →
      (workLoopTick false false mining s).isOk = true ∧
      ∀ s1 acts, workLoopTick false false mining s = Except.ok (s1, acts) →
        (s.maxConnectionAttempts ≤ s.connectionAttempt →
          s1.connectionSwitches = s.connectionSwitches + 1 ∧
          s1.activeConnectionIdx =
            (s.activeConnectionIdx + 1) % s.connections.length ∧
          (rotateConnection s).connectionAttempt = 0) ∧
        (s.connectionAttempt < s.maxConnectionAttempts →
          s1.connectionSwitches = s.connectionSwitches ∧
          s1.activeConnectionIdx = s.activeConnectionIdx)) ∧
    runTicks 4 sAB = Except.ok sAB4 ∧
    sAB4.activeConnectionIdx = 1 ∧ sAB4.connectionSwitches = 1 ∧
    sAB4.connectionAttempt = 1 := by
  refine ⟨?_, rfl, rfl, rfl, rfl⟩
  intro mining s ep hget hunrec
  have hnil : s.connections ≠ [] := by
    intro hc
    rw [hc] at hget
    simp at hget
  obtain ⟨hlt0, -⟩ := List.get?_eq_some.mp hget
  by_cases hrot : s.maxConnectionAttempts ≤ s.connectionAttempt
  · have heval : workLoopTick false false mining s =
        (if (rotateConnection s).connections.isEmpty then
          Except.ok ({ rotateConnection s with running := false },
            PMAction.suspendMining :: [] ++
              (if mining then [PMAction.farmStop] else []))
        else
          match (rotateConnection s).connections.get?
              (rotateConnection s).activeConnectionIdx with
          | none => Except.error ()
          | some ep1 =>
            if ep1.host = "exit" then
              Except.ok ({ rotateConnection s with running := false },
                PMAction.suspendMining :: [] ++
                  (if mining then [PMAction.farmStop] else []))
            else
              Except.ok
                ({ rotateConnection s with
                    connectionAttempt :=
                      (rotateConnection s).connectionAttempt + 1 },
                  PMAction.suspendMining :: [] ++
                    [PMAction.setConnection ep1, PMAction.connectClient])) := by
      simp only [workLoopTick, hget, hunrec, hrot, Bool.false_eq_true, if_false,
        ite_false, if_true, ite_true]
    have hne : (rotateConnection s).connections ≠ [] := hnil
    have hE : ¬(rotateConnection s).connections.isEmpty = true := by
      simpa [List.isEmpty_iff] using hne
    have hlt := rotateConnection_idx_lt s hnil
    have hmod : (rotateConnection s).activeConnectionIdx =
        (s.activeConnectionIdx + 1) % s.connections.length := by
      show (if s.connections.length ≤ s.activeConnectionIdx + 1 then 0
          else s.activeConnectionIdx + 1) =
        (s.activeConnectionIdx + 1) % s.connections.length
      by_cases hle : s.connections.length ≤ s.activeConnectionIdx + 1
      · rw [if_pos hle]
        have hx : s.activeConnectionIdx + 1 = s.connections.length := by omega
        rw [hx, Nat.mod_self]
      · rw [if_neg hle, Nat.mod_eq_of_lt (by omega)]
    constructor
    · rw [heval, if_neg hE, List.get?_eq_get hlt]
      by_cases hx : ((rotateConnection s).connections.get
          ⟨(rotateConnection s).activeConnectionIdx, hlt⟩).host = "exit"
      · simp only [hx, if_true, ite_true]
        rfl
      · simp only [hx, if_false, ite_false]
        rfl
    · intro s1 acts heq
      rw [heval, if_neg hE, List.get?_eq_get hlt] at heq
      by_cases hx : ((rotateConnection s).connections.get
          ⟨(rotateConnection s).activeConnectionIdx, hlt⟩).host = "exit"
      · simp only [hx, if_true, ite_true, Except.ok.injEq, Prod.mk.injEq] at heq
        obtain ⟨h1, h2⟩ := heq
        subst h1; subst h2
        exact ⟨fun _ => ⟨rfl, hmod, rfl⟩, fun hlt2 => absurd hrot (by omega)⟩
      · simp only [hx, if_false, ite_false, Except.ok.injEq, Prod.mk.injEq] at heq
        obtain ⟨h1, h2⟩ := heq
        subst h1; subst h2
        exact ⟨fun _ => ⟨rfl, hmod, rfl⟩, fun hlt2 => absurd hrot (by omega)⟩
  · have heval : workLoopTick false false mining s =
        (if s.connections.isEmpty then
          Except.ok ({ s with running := false },
            PMAction.suspendMining :: [] ++
              (if mining then [PMAction.farmStop] else []))
        else
          if ep.host = "exit" then
            Except.ok ({ s with running := false },
              PMAction.suspendMining :: [] ++
                (if mining then [PMAction.farmStop] else []))
          else
            Except.ok ({ s with connectionAttempt := s.connectionAttempt + 1 },
              PMAction.suspendMining :: [] ++
                [PMAction.setConnection ep, PMAction.connectClient])) := by
      simp only [workLoopTick, hget, hunrec, hrot, Bool.false_eq_true, if_false,
        ite_false, if_true, ite_true]
    have hE : ¬s.connections.isEmpty = true := by
      simpa [List.isEmpty_iff] using hnil
    constructor
    · rw [heval, if_neg hE]
      by_cases hx : ep.host = "exit"
      · simp only [hx, if_true, ite_true]
        rfl
      · simp only [hx, if_false, ite_false]
        rfl
    · intro s1 acts heq
      rw [heval, if_neg hE] at heq
      by_cases hx : ep.host = "exit"
      · simp only [hx, if_true, ite_true, Except.ok.injEq, Prod.mk.injEq] at heq
        obtain ⟨h1, h2⟩ := heq
        subst h1; subst h2
        exact ⟨fun hge => absurd hge (by omega), fun _ => ⟨rfl, rfl⟩⟩
      · simp only [hx, if_false, ite_false, Except.ok.injEq, Prod.mk.injEq] at heq
        obtain ⟨h1, h2⟩ := heq
        subst h1; subst h2
        exact ⟨fun hge => absurd hge (by omega), fun _ => ⟨rfl, rfl⟩⟩

/-- C3 witness: the rotation tick on `sAB3` (attempt counter at the
threshold) produces `sAB4`: one switch, active index advanced to
`1 = (0 + 1) % 2`, attempt counter zeroed at the rotation. -/
theorem rotation_on_exhaustion_amended_witness :
    sAB4.connectionSwitches = sAB3.connectionSwitches + 1 ∧
    sAB4.activeConnectionIdx =
      (sAB3.activeConnectionIdx + 1) % sAB3.connections.length ∧
    (rotateConnection sAB3).connectionAttempt = 0 := by
  have h := ((rotation_on_exhaustion_amended.1 false sAB3 uriA rfl rfl).2 sAB4
    [PMAction.suspendMining, PMAction.setConnection uriB, PMAction.connectClient]
    rfl).1
  exact h (by decide)

/-- C1 amended: `addConnection` appends without touching `active_index`,
`clearConnections` empties the registry, and the supervisor's
unrecoverable-erase wraps `active_index` back into range; but
`removeConnection i` only decrements `active_index` when
`active_index > i` and never wraps, so it preserves
`active_index < len` for every valid `i` except `i == active_index ==
len - 1`, where it leaves `active_index` equal to the new length (out of
range) on a still non-empty registry whenever `len ≥ 2`. -/
theorem registry_mutation_index_amended :
    (∀ (s : PMState) (u : URI),
      (addConnection u s).activeConnectionIdx = s.activeConnectionIdx ∧
      (addConnection u s).connections.length = s.connections.length + 1) ∧
    (∀ (s : PMState) (c : Bool), (clearConnections c s).1.connections = []) ∧
    (∀ s : PMState, (unrecoverableErase s).connections ≠ [] →
      (unrecoverableErase s).activeConnectionIdx <
        (unrecoverableErase s).connections.length) ∧
    (∀ (s : PMState) (i : Nat),
      i < s.connections.length →
      s.activeConnectionIdx < s.connections.length →
      ¬(i = s.activeConnectionIdx ∧ i + 1 = s.connections.length) →
      (removeConnection i s).activeConnectionIdx <
        (removeConnection i s).connections.length) ∧
    (∀ s : PMState,
      s.activeConnectionIdx + 1 = s.connections.length →
      2 ≤ s.connections.length →
      (removeConnection s.activeConnectionIdx s).activeConnectionIdx =
        (removeConnection s.activeConnectionIdx s).connections.length) := by
  refine ⟨?_, ?_, ?_, ?_, ?_⟩
  · intro s u
    exact ⟨rfl, by simp [addConnection]⟩
  · intro s c
    rfl
  · intro s h
    exact unrecoverableErase_idx_lt s h
  · intro s i hi ha hne
    have hlen : (s.connections.eraseIdx i).length = s.connections.length - 1 :=
      List.length_eraseIdx_of_lt hi
    show (if s.activeConnectionIdx > i then s.activeConnectionIdx - 1
        else s.activeConnectionIdx) < (s.connections.eraseIdx i).length
    rw [hlen]
    by_cases hgt : s.activeConnectionIdx > i
    · rw [if_pos hgt]
      omega
    · rw [if_neg hgt]
      omega
  · intro s h1 h2
    have hlen : (s.connections.eraseIdx s.activeConnectionIdx).length =
        s.connections.length - 1 :=
      List.length_eraseIdx_of_lt (by omega)
    show (if s.activeConnectionIdx > s.activeConnectionIdx then
        s.activeConnectionIdx - 1 else s.activeConnectionIdx) =
      (s.connections.eraseIdx s.activeConnectionIdx).length
    rw [if_neg (lt_irrefl _), hlen]
    omega

/-- C1 witness: the amended statements evaluated on concrete registries:
an append to the fresh manager, a clear of `sFail`, the unrecoverable
erase of `sFail`'s active endpoint, a removal below the active index,
and the out-of-range removal at `i == active_index == len - 1`. -/
theorem registry_mutation_index_amended_witness :
    ((addConnection uriA pmBase).activeConnectionIdx =
        pmBase.activeConnectionIdx ∧
      (addConnection uriA pmBase).connections.length =
        pmBase.connections.length + 1) ∧
    (clearConnections true sFail).1.connections = [] ∧
    (unrecoverableErase sFail).activeConnectionIdx <
      (unrecoverableErase sFail).connections.length ∧
    (removeConnection 0 sFail).activeConnectionIdx <
      (removeConnection 0 sFail).connections.length ∧
    (removeConnection sFail.activeConnectionIdx sFail).activeConnectionIdx =
      (removeConnection sFail.activeConnectionIdx sFail).connections.length :=
  ⟨registry_mutation_index_amended.1 pmBase uriA,
    registry_mutation_index_amended.2.1 sFail true,
    registry_mutation_index_amended.2.2.1 sFail (by decide),
    registry_mutation_index_amended.2.2.2.1 sFail 0 (by decide) (by decide)
      (by decide),
    registry_mutation_index_amended.2.2.2.2 sFail (by decide) (by decide)⟩

/-- Unfolding `beBytes` at 0. -/
theorem beBytes_zero : beBytes 0 = [] := by
  rw [beBytes]
  simp

/-- Unfolding `beBytes` at a positive value. -/
theorem beBytes_pos (v : Nat) (h : v ≠ 0) :
    beBytes v = beBytes (v / 256) ++ [v % 256] := by
  rw [beBytes]
  simp [h]

/-- Unfolding `beNibbles` at 0. -/
theorem beNibbles_zero : beNibbles 0 = [] := by
  rw [beNibbles]
  simp

/-- Unfolding `beNibbles` at a positive value. -/
theorem beNibbles_pos (v : Nat) (h : v ≠ 0) :
    beNibbles v = beNibbles (v / 16) ++ [v % 16] := by
  rw [beNibbles]
  simp [h]

/-- Appending a low-order digit multiplies the value by 16 and adds it. -/
theorem nibblesVal_append (xs : List Nat) (d : Nat) :
    nibblesVal (xs ++ [d]) = 16 * nibblesVal xs + d := by
  induction xs with
  | nil => simp [nibblesVal]
  | cons x xs ih =>
    have h1 : (x :: xs) ++ [d] = x :: (xs ++ [d]) := rfl
    rw [h1]
    show x * 16 ^ (xs ++ [d]).length + nibblesVal (xs ++ [d]) =
      16 * (x * 16 ^ xs.length + nibblesVal xs) + d
    rw [ih, List.length_append, List.length_singleton]
    ring

/-- `beNibbles` is a faithful big-endian base-16 representation. -/
theorem nibblesVal_beNibbles (v : Nat) : nibblesVal (beNibbles v) = v := by
  induction v using Nat.strong_induction_on with
  | _ v ih =>
    by_cases h : v = 0
    · subst h
      simp [beNibbles_zero, nibblesVal]
    · rw [beNibbles_pos v h, nibblesVal_append,
        ih (v / 16) (Nat.div_lt_self (Nat.pos_of_ne_zero h) (by norm_num))]
      omega

/-- Leading zero digits do not change the value of a digit string. -/
theorem nibblesVal_replicate_zero (k : Nat) (xs : List Nat) :
    nibblesVal (List.replicate k 0 ++ xs) = nibblesVal xs := by
  induction k with
  | zero => simp
  | succ k ih => simp [List.replicate_succ, nibblesVal, ih]

/-- A value below `16 ^ k` has at most `k` base-16 digits. -/
theorem beNibbles_len_le (k : Nat) : ∀ v : Nat, v < 16 ^ k →
    (beNibbles v).length ≤ k := by
  induction k with
  | zero =>
    intro v h
    have hv : v = 0 := by simpa using h
    subst hv
    simp [beNibbles_zero]
  | succ k ih =>
    intro v h
    by_cases h0 : v = 0
    · subst h0
      simp [beNibbles_zero]
    · rw [beNibbles_pos v h0, List.length_append]
      have hdiv : v / 16 < 16 ^ k := by
        rw [Nat.div_lt_iff_lt_mul (by norm_num)]
        calc v < 16 ^ (k + 1) := h
          _ = 16 ^ k * 16 := by ring
      have := ih (v / 16) hdiv
      simp only [List.length_singleton]
      omega

/-- A positive value's base-16 representation has a nonzero leading
digit. -/
theorem beNibbles_head_ne_zero : ∀ v : Nat, v ≠ 0 →
    ∃ d ds, beNibbles v = d :: ds ∧ d ≠ 0 := by
  intro v
  induction v using Nat.strong_induction_on with
  | _ v ih =>
    intro h
    by_cases h16 : v < 16
    · refine ⟨v % 16, [], ?_, ?_⟩
      · rw [beNibbles_pos v h, Nat.div_eq_of_lt h16, beNibbles_zero]
        rfl
      · have := Nat.mod_eq_of_lt h16
        omega
    · obtain ⟨d, ds, hds, hd⟩ :=
        ih (v / 16) (Nat.div_lt_self (Nat.pos_of_ne_zero h) (by norm_num))
          (Nat.div_pos (le_of_not_lt h16) (by norm_num)).ne'
      refine ⟨d, ds ++ [v % 16], ?_, hd⟩
      rw [beNibbles_pos v h, hds]
      simp

/-- Every base-16 digit produced by `beNibbles` is below 16. -/
theorem beNibbles_lt_16 : ∀ v d : Nat, d ∈ beNibbles v → d < 16 := by
  intro v
  induction v using Nat.strong_induction_on with
  | _ v ih =>
    intro d hd
    by_cases h : v = 0
    · subst h
      rw [beNibbles_zero] at hd
      simp at hd
    · rw [beNibbles_pos v h] at hd
      rcases List.mem_append.mp hd with h1 | h2
      · exact ih (v / 16) (Nat.div_lt_self (Nat.pos_of_ne_zero h) (by norm_num))
          d h1
      · have : d = v % 16 := by simpa using h2
        subst this
        exact Nat.mod_lt _ (by norm_num)

/-- `toHexChars` is nibble expansion followed by digit rendering. -/
theorem toHexChars_eq_map (bs : List Nat) :
    toHexChars bs = (nibblesOfBytes bs).map hexDigitChar := by
  induction bs with
  | nil => rfl
  | cons b bs ih => simp [toHexChars, nibblesOfBytes, ih]

/-- Nibble expansion distributes over append. -/
theorem nibblesOfBytes_append (xs ys : List Nat) :
    nibblesOfBytes (xs ++ ys) =
      nibblesOfBytes xs ++ nibblesOfBytes ys := by
  induction xs with
  | nil => rfl
  | cons x xs ih => simp [nibblesOfBytes, ih]

/-- The nibble expansion of the compact byte string is the minimal
base-16 digit string, with a single leading 0 exactly when the minimal
digit string has odd length (the high nibble of a leading byte below
16). -/
theorem nibblesOfBytes_beBytes : ∀ v : Nat,
    nibblesOfBytes (beBytes v) =
      (if (beNibbles v).length % 2 = 0 then beNibbles v
        else 0 :: beNibbles v) := by
  intro v
  induction v using Nat.strong_induction_on with
  | _ v ih =>
    by_cases h0 : v = 0
    · subst h0
      simp [beBytes_zero, beNibbles_zero, nibblesOfBytes]
    · by_cases h256 : v < 256
      · have hbyte : beBytes v = [v] := by
          rw [beBytes_pos v h0, Nat.div_eq_of_lt h256, beBytes_zero,
            Nat.mod_eq_of_lt h256]
          rfl
        by_cases h16 : v < 16
        · have hnib : beNibbles v = [v] := by
            rw [beNibbles_pos v h0, Nat.div_eq_of_lt h16, beNibbles_zero,
              Nat.mod_eq_of_lt h16]
            rfl
          rw [hbyte, hnib]
          simp [nibblesOfBytes, Nat.div_eq_of_lt h16, Nat.mod_eq_of_lt h16]
        · have hd0 : v / 16 ≠ 0 :=
            (Nat.div_pos (le_of_not_lt h16) (by norm_num)).ne'
          have hdlt : v / 16 < 16 := by
            rw [Nat.div_lt_iff_lt_mul (by norm_num)]
            omega
          have hnib : beNibbles v = [v / 16, v % 16] := by
            rw [beNibbles_pos v h0, beNibbles_pos (v / 16) hd0,
              Nat.div_eq_of_lt hdlt, beNibbles_zero, Nat.mod_eq_of_lt hdlt]
            rfl
          rw [hbyte, hnib]
          simp [nibblesOfBytes]
      · have h0' : v / 256 ≠ 0 :=
          (Nat.div_pos (le_of_not_lt h256) (by norm_num)).ne'
        have h16v : v / 16 ≠ 0 := by
          have h16le : (16 : Nat) ≤ v := by omega
          exact (Nat.div_pos h16le (by norm_num)).ne'
        have hdd : v / 16 / 16 = v / 256 := by
          rw [Nat.div_div_eq_div_mul]
        have hmod1 : v % 256 / 16 = v / 16 % 16 := by
          have h := Nat.mod_mul_right_div_self v 16 16
          have h2 : (16 * 16 : Nat) = 256 := by norm_num
          rw [h2] at h
          exact h
        have hmod2 : v % 256 % 16 = v % 16 :=
          Nat.mod_mod_of_dvd v (by norm_num)
        have hnib : beNibbles v =
            beNibbles (v / 256) ++ [v / 16 % 16, v % 16] := by
          rw [beNibbles_pos v h0, beNibbles_pos (v / 16) h16v, hdd,
            List.append_assoc]
          rfl
        have hlen : (beNibbles v).length =
            (beNibbles (v / 256)).length + 2 := by
          rw [hnib]
          simp
        rw [beBytes_pos v h0, nibblesOfBytes_append,
          ih (v / 256) (Nat.div_lt_self (by omega) (by norm_num))]
        have hone : nibblesOfBytes [v % 256] = [v / 16 % 16, v % 16] := by
          simp [nibblesOfBytes, hmod1, hmod2]
        rw [hone]
        by_cases hpar : (beNibbles (v / 256)).length % 2 = 0
        · rw [if_pos hpar, if_pos (by omega), hnib]
        · rw [if_neg hpar, if_neg (by omega), hnib]
          simp

/-- A nonzero hexadecimal digit below 16 never renders as `'0'`. -/
theorem hexDigitChar_ne_zero_char :
    ∀ d : Nat, d < 16 → d ≠ 0 → hexDigitChar d ≠ '0' := by
  decide

/-- Every digit below 16 renders as a lowercase hexadecimal
character. -/
theorem hexDigitChar_mem_lowerHex :
    ∀ d : Nat, d < 16 → isLowerHexDigit (hexDigitChar d) = true := by
  decide

/-- Reading a rendered digit back gives the digit. -/
theorem hexCharVal_hexDigitChar :
    ∀ d : Nat, d < 16 → hexCharVal (hexDigitChar d) = d := by
  decide

/-- Every digit of `specNibbles` is below 16. -/
theorem specNibbles_lt_16 (v d : Nat) (hd : d ∈ specNibbles v) : d < 16 := by
  by_cases h : v = 0
  · subst h
    simp [specNibbles] at hd
    omega
  · rw [specNibbles, if_neg h] at hd
    exact beNibbles_lt_16 v d hd

/-- `specNibbles` is a faithful big-endian base-16 representation. -/
theorem nibblesVal_specNibbles (v : Nat) : nibblesVal (specNibbles v) = v := by
  by_cases h : v = 0
  · subst h
    simp [specNibbles, nibblesVal]
  · rw [specNibbles, if_neg h]
    exact nibblesVal_beNibbles v

/-- A 64-bit value has at most 16 hexadecimal digits. -/
theorem specNibbles_len_le_16 (v : Nat) (hv : v < 2 ^ 64) :
    (specNibbles v).length ≤ 16 := by
  by_cases h : v = 0
  · subst h
    simp [specNibbles]
  · rw [specNibbles, if_neg h]
    apply beNibbles_len_le 16
    have h16 : (16 : Nat) ^ 16 = 2 ^ 64 := by norm_num
    omega

/-- The `res` string of the hashrate block equals the rendering of the
minimal hexadecimal digit string of the value: the conditional
first-character drop removes exactly the redundant high nibble the
byte-level rendering introduces. -/
theorem hashrateResChars_eq (v : Nat) :
    hashrateResChars v = (specNibbles v).map hexDigitChar := by
  by_cases h0 : v = 0
  · subst h0
    rfl
  · have hbytes : toCompactBigEndianBytes v = beBytes v := by
      simp [toCompactBigEndianBytes, h0]
    unfold hashrateResChars
    rw [hbytes, toHexChars_eq_map, nibblesOfBytes_beBytes]
    have hspec : specNibbles v = beNibbles v := by
      rw [specNibbles, if_neg h0]
    rw [hspec]
    obtain ⟨d, ds, hds, hd⟩ := beNibbles_head_ne_zero v h0
    have hd16 : d < 16 := by
      refine beNibbles_lt_16 v d ?_
      rw [hds]
      exact List.mem_cons_self d ds
    by_cases hpar : (beNibbles v).length % 2 = 0
    · rw [if_pos hpar, hds]
      have hne : hexDigitChar d ≠ '0' := hexDigitChar_ne_zero_char d hd16 hd
      simp [hne]
    · rw [if_neg hpar, hds]
      simp [hexDigitChar]

/-- C8: for every hash-rate value fitting in 64 bits, the submitted
string is `"0x"` followed by exactly 64 characters: the value's
big-endian hexadecimal digits, zero-padded on the left, all of them
lowercase hexadecimal digits, and decoding them recovers the value;
in particular the code's string coincides with the spec's wording
(`hashrateHexSpec`). -/
theorem submit_hashrate_format (v : Nat) (hv : v < 2 ^ 64) :
    submitHashrateString v = hashrateHexSpec v ∧
    (submitHashrateString v).length = 66 ∧
    (submitHashrateString v).data =
      '0' :: 'x' ::
        (List.replicate (64 - (specNibbles v).length) '0' ++
          (specNibbles v).map hexDigitChar) ∧
    (∀ c ∈ (submitHashrateString v).data.drop 2, isLowerHexDigit c = true) ∧
    nibblesVal (((submitHashrateString v).data.drop 2).map hexCharVal) = v := by
  have hres := hashrateResChars_eq v
  have hlenmap : ((specNibbles v).map hexDigitChar).length =
      (specNibbles v).length := List.length_map _ _
  have hmain : submitHashrateString v = hashrateHexSpec v := by
    unfold submitHashrateString hashrateHexSpec
    rw [hres, hlenmap]
  have hdata : (submitHashrateString v).data =
      '0' :: 'x' :: (List.replicate (64 - (specNibbles v).length) '0' ++
        (specNibbles v).map hexDigitChar) := by
    rw [hmain]
    rfl
  have hn16 : (specNibbles v).length ≤ 16 := specNibbles_len_le_16 v hv
  have hdrop : (submitHashrateString v).data.drop 2 =
      List.replicate (64 - (specNibbles v).length) '0' ++
        (specNibbles v).map hexDigitChar := by
    rw [hdata]
    rfl
  refine ⟨hmain, ?_, hdata, ?_, ?_⟩
  · have hl : (submitHashrateString v).length =
        (submitHashrateString v).data.length := rfl
    rw [hl, hdata]
    simp only [List.length_cons, List.length_append, List.length_replicate,
      hlenmap]
    omega
  · intro c hc
    rw [hdrop] at hc
    rcases List.mem_append.mp hc with h1 | h2
    · have hc0 : c = '0' := List.eq_of_mem_replicate h1
      subst hc0
      decide
    · obtain ⟨d, hd, rfl⟩ := List.mem_map.mp h2
      exact hexDigitChar_mem_lowerHex d (specNibbles_lt_16 v d hd)
  · rw [hdrop, List.map_append, List.map_replicate]
    have h0v : hexCharVal '0' = 0 := rfl
    rw [h0v]
    have hmapmap : ((specNibbles v).map hexDigitChar).map hexCharVal =
        specNibbles v := by
      rw [List.map_map]
      have hcong : ∀ d ∈ specNibbles v,
          (hexCharVal ∘ hexDigitChar) d = id d := fun d hd =>
        hexCharVal_hexDigitChar d (specNibbles_lt_16 v d hd)
      rw [List.map_eq_map_iff.mpr hcong, List.map_id]
    rw [hmapmap, nibblesVal_replicate_zero, nibblesVal_specNibbles]

/-- C8 witness: the format theorem evaluated at the 64-bit value
`0x1122334455667788`. -/
theorem submit_hashrate_format_witness :
    (1234605616436508552 : Nat) < 2 ^ 64 ∧
    submitHashrateString 1234605616436508552 =
      hashrateHexSpec 1234605616436508552 :=
  ⟨by decide, (submit_hashrate_format 1234605616436508552 (by decide)).1⟩
